import Mathlib

/-!
Verification of the external sorting engine in `rust_extsort`.

The development shallowly embeds the repository's code:

* `src/lib.rs` — the split / staged k-way merge pipeline (`Sort::sort`,
  `Sort::split_invoke`, `Sort::split_add_file`, `Sort::merge_invoke`,
  `Sort::merge_add_files`, `Sort::join_pool`, `Sort::add_to_pool`,
  `Sort::as_iter`, `SortedIter::next`);
* `src/lines.rs` — the fallible line codec, including the composite codec
  for `Result<T, E>`;
* `src/split.rs` — the equal-run splitter (`split`, `SplitIter::next`,
  `SameSplitIter::next`).

Files are modelled as lists of lines (the trailing `"\n"` separators are
implicit in the list structure), stages as lists of files, and the worker
pool as sequential execution of the submitted jobs: each job is a pure
function of the files it reads, and jobs of one stage touch disjoint files,
so the sequentialisation is faithful for the functional claims.  The record
type `α` carries the `Ord` bound as a `LinearOrder` instance.
-/

namespace Extsort

/-- Model of `std::io::Error`: the codec only ever constructs
`ErrorKind::InvalidInput`; every other error is abstracted by a code. -/
inductive IoError where
  | invalidInput : IoError
  | other : Nat → IoError
deriving DecidableEq, Repr

variable {α : Type} [LinearOrder α]

/-- Loop body of `Sort::split_invoke` (src/lib.rs lines 191-209) fused with
`Sort::split_add_file`'s empty-buffer guard (line 167): the accumulator
`curSize`/`curVec` mirrors `cur_size`/`cur_vec`; when `cur_size + size`
exceeds `max_split_size` the buffer is submitted (dropped if empty) and the
new record starts the next buffer, otherwise the record is appended.  After
the input is exhausted the remaining buffer is submitted (line 207). -/
def split_go (len : α → Nat) (cap : Nat) : Nat → List α → List α → List (List α)
  | _, curVec, [] => if curVec.isEmpty then [] else [curVec]
  | curSize, curVec, data :: rest =>
    let size := len data
    if curSize + size > cap then
      if curVec.isEmpty then split_go len cap size [data] rest
      else curVec :: split_go len cap size [data] rest
    else split_go len cap (curSize + size) (curVec ++ [data]) rest

/-- Model of `Sort::split_invoke` (src/lib.rs lines 191-209): the list of
chunks submitted to the pool, in submission order. -/
def split_invoke (len : α → Nat) (cap : Nat) (xs : List α) : List (List α) :=
  split_go len cap 0 [] xs

/-- Body of the closure submitted by `Sort::split_add_file` (src/lib.rs
lines 175-183): `data_vec.sort()` — Rust's stable ascending sort, modelled
by `List.mergeSort` with the `≤` comparison. -/
def split_worker (chunk : List α) : List α :=
  chunk.mergeSort (fun a b => decide (a ≤ b))

/-- Comparison used by the `BinaryHeap<Reverse<(T, usize)>>` in
`Sort::merge_add_files` (src/lib.rs line 234): popping the maximum
`Reverse` pops the lexicographically least `(record, source_index)`. -/
def lexLt (p q : α × Nat) : Bool :=
  decide (p.1 < q.1) || (decide (p.1 = q.1) && decide (p.2 < q.2))

/-- Model of `BinaryHeap::pop` on a heap of `Reverse<(T, usize)>` values
(src/lib.rs line 243): removes a lexicographically least element; the heap
itself is abstracted as the list of its elements. -/
def popMin : List (α × Nat) → Option ((α × Nat) × List (α × Nat))
  | [] => none
  | x :: xs =>
    match popMin xs with
    | none => some (x, [])
    | some (m, rest) => if lexLt m x then some (m, x :: rest) else some (x, xs)

theorem popMin_cons_eq (x : α × Nat) (xs : List (α × Nat)) :
    popMin (x :: xs) =
      match popMin xs with
      | none => some (x, [])
      | some (m, rest) => if lexLt m x then some (m, x :: rest) else some (x, xs) := rfl

theorem popMin_ne_none (x : α × Nat) (xs : List (α × Nat)) :
    popMin (x :: xs) ≠ none := by
  rw [popMin_cons_eq]
  rcases popMin xs with - | ⟨m, rest⟩
  · simp
  · dsimp only
    split <;> simp

theorem popMin_spec :
    ∀ (l : List (α × Nat)) (m : α × Nat) (rest : List (α × Nat)),
      popMin l = some (m, rest) →
      l.Perm (m :: rest) ∧ (∀ p ∈ l, m.1 ≤ p.1) ∧ rest.length + 1 = l.length := by
  intro l
  induction l with
  | nil => intro m rest h; simp [popMin] at h
  | cons x xs ih =>
    intro m rest h
    rw [popMin_cons_eq] at h
    rcases hx : popMin xs with - | ⟨m', rest'⟩ <;> rw [hx] at h <;> dsimp only at h
    · have hxs : xs = [] := by
        cases xs with
        | nil => rfl
        | cons y ys => exact absurd hx (popMin_ne_none y ys)
      subst hxs
      simp only [Option.some.injEq, Prod.mk.injEq] at h
      obtain ⟨h1, h2⟩ := h
      subst h1; subst h2
      refine ⟨List.Perm.refl _, ?_, by simp⟩
      intro p hp
      simp at hp
      subst hp
      exact le_refl _
    · obtain ⟨hperm', hmin', hlen'⟩ := ih m' rest' hx
      by_cases hlt : lexLt m' x
      · rw [if_pos hlt] at h
        have hle : m'.1 ≤ x.1 := by
          simp only [lexLt, Bool.or_eq_true, Bool.and_eq_true, decide_eq_true_eq] at hlt
          rcases hlt with hlt | ⟨heq, -⟩
          · exact le_of_lt hlt
          · exact le_of_eq heq
        simp only [Option.some.injEq, Prod.mk.injEq] at h
        obtain ⟨h1, h2⟩ := h
        subst h1; subst h2
        refine ⟨?_, ?_, by simp [← hlen']⟩
        · exact List.Perm.trans (hperm'.cons x) (List.Perm.swap _ _ _)
        · intro p hp
          rcases List.mem_cons.mp hp with hp | hp
          · subst hp; exact hle
          · exact hmin' p hp
      · rw [if_neg hlt] at h
        have hle : x.1 ≤ m'.1 := by
          simp only [lexLt, Bool.or_eq_true, Bool.and_eq_true, decide_eq_true_eq,
            not_or, not_and, not_lt] at hlt
          exact hlt.1
        simp only [Option.some.injEq, Prod.mk.injEq] at h
        obtain ⟨h1, h2⟩ := h
        subst h1; subst h2
        refine ⟨List.Perm.refl _, ?_, by simp⟩
        intro p hp
        rcases List.mem_cons.mp hp with hp | hp
        · subst hp; exact le_refl _
        · exact le_trans hle (hmin' p hp)

theorem sum_length_set (iters : List (List α)) (i : Nat) (bs : List α)
    (hi : i < iters.length) :
    ((iters.set i bs).map List.length).sum + (iters.getD i []).length =
      (iters.map List.length).sum + bs.length := by
  induction iters generalizing i with
  | nil => simp at hi
  | cons f fs ih =>
    cases i with
    | zero => simp; omega
    | succ j =>
      simp only [List.set_cons_succ, List.map_cons, List.sum_cons, List.getD_cons_succ]
      have := ih j (by simpa using hi)
      omega

/-- Main loop of the closure submitted by `Sort::merge_add_files`
(src/lib.rs lines 242-249): pop the heap's least `(record, idx)` pair,
emit the record, then refill the heap from source iterator `idx` if it
still has elements.  `iters` holds the unread suffix of each source. -/
def mergeLoop : List (α × Nat) → List (List α) → List α
  | heap, iters =>
    match hpop : popMin heap with
    | none => []
    | some ((a, i), rest) =>
      match hit : iters.getD i [] with
      | [] => a :: mergeLoop rest iters
      | b :: bs => a :: mergeLoop ((b, i) :: rest) (iters.set i bs)
termination_by heap iters => heap.length + (iters.map List.length).sum
decreasing_by
  · have := (popMin_spec heap _ _ hpop).2.2
    omega
  · have h1 := (popMin_spec heap _ _ hpop).2.2
    have hi : i < iters.length := by
      by_contra hge
      rw [List.getD_eq_default _ _ (by omega)] at hit
      exact absurd hit (by simp)
    have h2 := sum_length_set iters i bs hi
    rw [hit] at h2
    simp only [List.length_cons] at *
    omega

/-- Heap-seeding loop of `Sort::merge_add_files` (src/lib.rs lines
234-240): for each source iterator, in index order, push its first record
paired with its index; exhausted sources are skipped. -/
def seedFrom : Nat → List (List α) → List (α × Nat)
  | _, [] => []
  | i, [] :: fs => seedFrom (i + 1) fs
  | i, (a :: _) :: fs => (a, i) :: seedFrom (i + 1) fs

/-- Record-level model of the closure submitted by `Sort::merge_add_files`
(src/lib.rs lines 224-259): k-way merge of the given source files.  The
seeding advances each source past its first record, so the iterator state
entering the main loop is the list of tails. -/
def merge_worker (files : List (List α)) : List α :=
  mergeLoop (seedFrom 0 files) (files.map List.tail)

/-- Partition loop of `Sort::merge_invoke` (src/lib.rs lines 270-276): the
list of `(first, last)` ranges, where `last = min count (first + length)`
and `length = num_merge`.  The source loop `while first != count` does not
terminate when `num_merge = 0` (then `last = first`); the guard `0 < k`
makes the model total, and no claim below is evaluated at `k = 0`. -/
def mergeRangesGo (k count : Nat) (first : Nat) : List (Nat × Nat) :=
  if h : first < count ∧ 0 < k then
    (first, min count (first + k)) :: mergeRangesGo k count (min count (first + k))
  else []
termination_by count - first
decreasing_by omega

theorem mergeRangesGo_len (k count : Nat) (hk : 1 ≤ k) :
    ∀ first, first ≤ count →
      (mergeRangesGo k count first).length = (count - first + k - 1) / k := by
  intro first
  induction first using mergeRangesGo.induct k count with
  | case1 first h ih =>
    intro hf
    obtain ⟨h1, h2⟩ := h
    rw [mergeRangesGo, dif_pos ⟨h1, h2⟩, List.length_cons, ih (by omega)]
    rcases Nat.le_total count (first + k) with hle | hle
    · rw [Nat.min_eq_left hle, Nat.sub_self]
      have hz : 0 + k - 1 = k - 1 := by omega
      rw [hz, Nat.div_eq_of_lt (by omega)]
      have he : count - first + k - 1 = (count - first - 1) + k := by omega
      rw [he, Nat.add_div_right _ h2, Nat.div_eq_of_lt (by omega)]
    · rw [Nat.min_eq_right hle]
      have he : count - first + k - 1 = (count - (first + k) + k - 1) + k := by omega
      rw [he, Nat.add_div_right _ h2]
  | case2 first h =>
    intro hf
    rw [mergeRangesGo, dif_neg h]
    push_neg at h
    have hfc : first = count := by
      rcases Nat.lt_or_ge first count with hc | hc
      · have := h hc
        omega
      · omega
    subst hfc
    rw [Nat.sub_self]
    have hz : 0 + k - 1 = k - 1 := by omega
    rw [hz, Nat.div_eq_of_lt (by omega)]
    simp

/-- Source files read by the merge job for range `r = (first, last)`: files
`first, first + 1, …, last - 1` of the current stage, in index order
(src/lib.rs lines 226-232). -/
def slice {φ : Type} (files : List φ) (r : Nat × Nat) : List φ :=
  (files.drop r.1).take (r.2 - r.1)

/-- Model of `Sort::merge_invoke` (src/lib.rs lines 266-278): one merge
stage.  File `j` of the next stage is the merge of the `j`-th range of the
current stage (the jobs allocate output slots in submission order via
`get_cur_file_name` / `next_file`). -/
def merge_invoke (k : Nat) (files : List (List α)) : List (List α) :=
  (mergeRangesGo k files.length 0).map (fun r => merge_worker (slice files r))

theorem merge_invoke_length (k : Nat) (files : List (List α)) (hk : 1 ≤ k) :
    (merge_invoke k files).length = (files.length + k - 1) / k := by
  unfold merge_invoke
  rw [List.length_map, mergeRangesGo_len k files.length hk 0 (by omega), Nat.sub_zero]

theorem mergeRangesGo_zero_lt (k n : Nat) (hk : 2 ≤ k) (hn : 1 < n) :
    (mergeRangesGo k n 0).length < n := by
  rw [mergeRangesGo_len k n (by omega) 0 (by omega), Nat.sub_zero]
  obtain ⟨a, ha⟩ : ∃ a, n = a + 2 := ⟨n - 2, by omega⟩
  obtain ⟨b, hb⟩ : ∃ b, k = b + 2 := ⟨k - 2, by omega⟩
  rw [ha, hb, Nat.div_lt_iff_lt_mul (by omega)]
  have hmul : (a + 2) * (b + 2) = a * b + (2 * a + 2 * b + 4) := by ring
  rw [hmul]
  exact lt_of_lt_of_le (by omega : a + 2 + (b + 2) - 1 < 2 * a + 2 * b + 4)
    (Nat.le_add_left _ _)

theorem merge_invoke_length_lt (k : Nat) (files : List (List α)) (hk : 2 ≤ k)
    (hn : 1 < files.length) : (merge_invoke k files).length < files.length := by
  unfold merge_invoke
  rw [List.length_map]
  exact mergeRangesGo_zero_lt k files.length hk hn

/-- Merge loop of `Sort::sort` (src/lib.rs lines 332-338): repeat
`merge_invoke` while more than one file remains.  The source loop does not
terminate when `num_merge ≤ 1` and more than one file exists (the stage
count never decreases); the guard `2 ≤ k` makes the model total, and the
claims about this loop carry that hypothesis. -/
def mergeUntilOne (k : Nat) (files : List (List α)) : List (List α) :=
  if h : 1 < files.length ∧ 2 ≤ k then mergeUntilOne k (merge_invoke k files) else files
termination_by files.length
decreasing_by exact merge_invoke_length_lt k files h.2 h.1

/-- Model of `Sort::as_iter` (src/lib.rs lines 294-304): zero files on the
final stage yield the empty iterator, one file yields its contents, and any
other count panics (`none`). -/
def as_iter (files : List (List α)) : Option (List α) :=
  match files with
  | [] => some []
  | [f] => some f
  | _ => none

/-- Record-level model of `Sort::sort` (src/lib.rs lines 321-341): split
the input into chunks, sort each chunk, merge stage by stage until at most
one file remains, then hand the final file to the iterator. -/
def sortRecords (len : α → Nat) (cap k : Nat) (xs : List α) : Option (List α) :=
  as_iter (mergeUntilOne k ((split_invoke len cap xs).map split_worker))

theorem getD_set_ne {β : Type} (l : List β) (d : β) (i j : Nat) (b : β) (hne : j ≠ i) :
    (l.set i b).getD j d = l.getD j d := by
  rw [List.getD_eq_getElem?_getD, List.getD_eq_getElem?_getD, List.getElem?_set]
  rw [if_neg (Ne.symm hne)]

theorem getD_set_eq {β : Type} (l : List β) (d : β) (i : Nat) (b : β) (hi : i < l.length) :
    (l.set i b).getD i d = b := by
  rw [List.getD_eq_getElem?_getD, List.getElem?_set]
  rw [if_pos rfl, if_pos hi]
  rfl

theorem flatten_set_perm (iters : List (List α)) (i : Nat) (b : α) (bs : List α)
    (h : iters.getD i [] = b :: bs) (hi : i < iters.length) :
    iters.flatten.Perm (b :: (iters.set i bs).flatten) := by
  induction iters generalizing i with
  | nil => simp at hi
  | cons f fs ih =>
    cases i with
    | zero =>
      simp only [List.getD_cons_zero] at h
      subst h
      simp only [List.set_cons_zero, List.flatten_cons, List.cons_append]
      exact List.Perm.refl _
    | succ j =>
      simp only [List.getD_cons_succ] at h
      have hj : j < fs.length := by simpa using hi
      have hp := ih j h hj
      simp only [List.set_cons_succ, List.flatten_cons]
      exact (hp.append_left f).trans List.perm_middle

theorem mergeLoop_eq_done (heap : List (α × Nat)) (iters : List (List α))
    (h : popMin heap = none) : mergeLoop heap iters = [] := by
  unfold mergeLoop
  split
  · rfl
  · rename_i heq
    rw [h] at heq
    cases heq

theorem mergeLoop_eq_exhausted (heap : List (α × Nat)) (iters : List (List α))
    (a : α) (i : Nat) (rest : List (α × Nat))
    (h : popMin heap = some ((a, i), rest)) (h2 : iters.getD i [] = []) :
    mergeLoop heap iters = a :: mergeLoop rest iters := by
  conv_lhs => rw [mergeLoop]
  split
  · rename_i heq
    rw [h] at heq
    cases heq
  · rename_i a2 i2 rest2 heq
    rw [h] at heq
    cases heq
    split
    · rfl
    · rename_i b2 bs2 heq2
      rw [h2] at heq2
      cases heq2

theorem mergeLoop_eq_push (heap : List (α × Nat)) (iters : List (List α))
    (a : α) (i : Nat) (rest : List (α × Nat)) (b : α) (bs : List α)
    (h : popMin heap = some ((a, i), rest)) (h2 : iters.getD i [] = b :: bs) :
    mergeLoop heap iters = a :: mergeLoop ((b, i) :: rest) (iters.set i bs) := by
  conv_lhs => rw [mergeLoop]
  split
  · rename_i heq
    rw [h] at heq
    cases heq
  · rename_i a2 i2 rest2 heq
    rw [h] at heq
    cases heq
    split
    · rename_i heq2
      rw [h2] at heq2
      cases heq2
    · rename_i b2 bs2 heq2
      rw [h2] at heq2
      cases heq2
      rfl

theorem mergeLoop_perm (heap : List (α × Nat)) (iters : List (List α)) :
    (∀ j, j < iters.length → iters.getD j [] ≠ [] → j ∈ heap.map Prod.snd) →
    (mergeLoop heap iters).Perm (heap.map Prod.fst ++ iters.flatten) := by
  induction heap, iters using mergeLoop.induct with
  | case1 heap iters hpop =>
    intro hcover
    have hh : heap = [] := by
      cases heap with
      | nil => rfl
      | cons x xs => exact absurd hpop (popMin_ne_none x xs)
    subst hh
    have hflat : iters.flatten = [] := by
      rw [List.flatten_eq_nil_iff]
      intro f hf
      obtain ⟨j, hj, hgf⟩ := List.getElem_of_mem hf
      by_contra hne
      have hm := hcover j hj (by rw [List.getD_eq_getElem _ _ hj, hgf]; exact hne)
      simp at hm
    rw [mergeLoop_eq_done [] iters hpop, hflat]
    exact List.Perm.refl _
  | case2 heap iters a i rest hpop hit ih =>
    intro hcover
    obtain ⟨hperm, hmin, hlen⟩ := popMin_spec heap (a, i) rest hpop
    rw [mergeLoop_eq_exhausted heap iters a i rest hpop hit]
    have hcover2 : ∀ j, j < iters.length → iters.getD j [] ≠ [] → j ∈ rest.map Prod.snd := by
      intro j hj hne
      obtain ⟨p, hp, hpj⟩ := List.mem_map.mp (hcover j hj hne)
      have hp2 : p ∈ (a, i) :: rest := hperm.mem_iff.mp hp
      rcases List.mem_cons.mp hp2 with hp2 | hp2
      · exfalso
        subst hp2
        simp only at hpj
        rw [hpj] at hit
        exact hne hit
      · exact List.mem_map.mpr ⟨p, hp2, hpj⟩
    refine ((ih hcover2).cons a).trans ?_
    have hmapf : (heap.map Prod.fst).Perm (a :: rest.map Prod.fst) := by
      simpa using hperm.map Prod.fst
    exact (hmapf.append_right iters.flatten).symm
  | case3 heap iters a i rest hpop b bs hit ih =>
    intro hcover
    obtain ⟨hperm, hmin, hlen⟩ := popMin_spec heap (a, i) rest hpop
    have hi : i < iters.length := by
      by_contra hge
      rw [List.getD_eq_default _ _ (by omega)] at hit
      exact absurd hit (by simp)
    rw [mergeLoop_eq_push heap iters a i rest b bs hpop hit]
    have hcover3 : ∀ j, j < (iters.set i bs).length → (iters.set i bs).getD j [] ≠ [] →
        j ∈ ((b, i) :: rest).map Prod.snd := by
      intro j hj hne
      rw [List.length_set] at hj
      by_cases hji : j = i
      · subst hji
        simp
      · rw [getD_set_ne _ _ _ _ _ hji] at hne
        obtain ⟨p, hp, hpj⟩ := List.mem_map.mp (hcover j hj hne)
        have hp2 : p ∈ (a, i) :: rest := hperm.mem_iff.mp hp
        rcases List.mem_cons.mp hp2 with hp2 | hp2
        · exfalso
          subst hp2
          simp only at hpj
          exact hji hpj.symm
        · simp only [List.map_cons, List.mem_cons]
          exact Or.inr (List.mem_map.mpr ⟨p, hp2, hpj⟩)
    have hflat : iters.flatten.Perm (b :: (iters.set i bs).flatten) :=
      flatten_set_perm iters i b bs hit hi
    have hmapf : (heap.map Prod.fst).Perm (a :: rest.map Prod.fst) := by
      simpa using hperm.map Prod.fst
    have step1 : (heap.map Prod.fst ++ iters.flatten).Perm
        ((a :: rest.map Prod.fst) ++ (b :: (iters.set i bs).flatten)) :=
      hmapf.append hflat
    have step2 : ((a :: rest.map Prod.fst) ++ (b :: (iters.set i bs).flatten)).Perm
        (a :: b :: (rest.map Prod.fst ++ (iters.set i bs).flatten)) :=
      List.Perm.cons a List.perm_middle
    exact ((ih hcover3).cons a).trans (step1.trans step2).symm

theorem mergeLoop_sorted (heap : List (α × Nat)) (iters : List (List α)) :
    (∀ p ∈ heap, ∀ b ∈ iters.getD p.2 [], p.1 ≤ b) →
    (∀ f ∈ iters, List.Sorted (· ≤ ·) f) →
    List.Sorted (· ≤ ·) (mergeLoop heap iters) ∧
      ∀ x ∈ mergeLoop heap iters, ∃ p ∈ heap, p.1 ≤ x := by
  induction heap, iters using mergeLoop.induct with
  | case1 heap iters hpop =>
    intro hbound hsorted
    rw [mergeLoop_eq_done heap iters hpop]
    exact ⟨List.sorted_nil, by simp⟩
  | case2 heap iters a i rest hpop hit ih =>
    intro hbound hsorted
    obtain ⟨hperm, hmin, hlen⟩ := popMin_spec heap (a, i) rest hpop
    have hmem : (a, i) ∈ heap := hperm.mem_iff.mpr (List.mem_cons_self _ _)
    rw [mergeLoop_eq_exhausted heap iters a i rest hpop hit]
    have hrest_sub : ∀ p ∈ rest, p ∈ heap := fun p hp =>
      hperm.mem_iff.mpr (List.mem_cons_of_mem _ hp)
    obtain ⟨ihs, ihb⟩ := ih (fun p hp => hbound p (hrest_sub p hp)) hsorted
    constructor
    · rw [List.sorted_cons]
      refine ⟨?_, ihs⟩
      intro x hx
      obtain ⟨p, hp, hpx⟩ := ihb x hx
      exact le_trans (hmin p (hrest_sub p hp)) hpx
    · intro x hx
      rcases List.mem_cons.mp hx with hx | hx
      · exact ⟨(a, i), hmem, le_of_eq hx.symm⟩
      · obtain ⟨p, hp, hpx⟩ := ihb x hx
        exact ⟨p, hrest_sub p hp, hpx⟩
  | case3 heap iters a i rest hpop b bs hit ih =>
    intro hbound hsorted
    obtain ⟨hperm, hmin, hlen⟩ := popMin_spec heap (a, i) rest hpop
    have hmem : (a, i) ∈ heap := hperm.mem_iff.mpr (List.mem_cons_self _ _)
    have hi : i < iters.length := by
      by_contra hge
      rw [List.getD_eq_default _ _ (by omega)] at hit
      exact absurd hit (by simp)
    have hab : a ≤ b := hbound (a, i) hmem b (by rw [hit]; exact List.mem_cons_self _ _)
    have hsorted_i : List.Sorted (· ≤ ·) (b :: bs) := by
      rw [← hit]
      exact hsorted _ (by rw [List.getD_eq_getElem _ _ hi]; exact List.getElem_mem _)
    have hrest_sub : ∀ p ∈ rest, p ∈ heap := fun p hp =>
      hperm.mem_iff.mpr (List.mem_cons_of_mem _ hp)
    rw [mergeLoop_eq_push heap iters a i rest b bs hpop hit]
    have hbound3 : ∀ p ∈ (b, i) :: rest, ∀ c ∈ (iters.set i bs).getD p.2 [], p.1 ≤ c := by
      intro p hp c hc
      rcases List.mem_cons.mp hp with hp | hp
      · subst hp
        simp only at hc ⊢
        rw [getD_set_eq _ _ _ _ hi] at hc
        exact (List.sorted_cons.mp hsorted_i).1 c hc
      · by_cases hpi : p.2 = i
        · rw [hpi, getD_set_eq _ _ _ _ hi] at hc
          refine hbound p (hrest_sub p hp) c ?_
          rw [hpi, hit]
          exact List.mem_cons_of_mem _ hc
        · rw [getD_set_ne _ _ _ _ _ hpi] at hc
          exact hbound p (hrest_sub p hp) c hc
    have hsorted3 : ∀ f ∈ iters.set i bs, List.Sorted (· ≤ ·) f := by
      intro f hf
      rcases List.mem_or_eq_of_mem_set hf with hf | hf
      · exact hsorted f hf
      · subst hf
        exact (List.sorted_cons.mp hsorted_i).2
    obtain ⟨ihs, ihb⟩ := ih hbound3 hsorted3
    constructor
    · rw [List.sorted_cons]
      refine ⟨?_, ihs⟩
      intro x hx
      obtain ⟨p, hp, hpx⟩ := ihb x hx
      rcases List.mem_cons.mp hp with hp | hp
      · subst hp
        exact le_trans hab hpx
      · exact le_trans (hmin p (hrest_sub p hp)) hpx
    · intro x hx
      rcases List.mem_cons.mp hx with hx | hx
      · exact ⟨(a, i), hmem, le_of_eq hx.symm⟩
      · obtain ⟨p, hp, hpx⟩ := ihb x hx
        rcases List.mem_cons.mp hp with hp | hp
        · subst hp
          exact ⟨(a, i), hmem, le_trans hab hpx⟩
        · exact ⟨p, hrest_sub p hp, hpx⟩


theorem seedFrom_perm (files : List (List α)) :
    ∀ n, ((seedFrom n files).map Prod.fst ++ (files.map List.tail).flatten).Perm
      files.flatten := by
  induction files with
  | nil => intro n; simp [seedFrom]
  | cons f fs ih =>
    intro n
    cases f with
    | nil =>
      simp only [seedFrom, List.map_cons, List.flatten_cons, List.tail_nil, List.nil_append]
      simpa using ih (n + 1)
    | cons a t =>
      simp only [seedFrom, List.map_cons, List.flatten_cons, List.tail_cons, List.cons_append]
      refine List.Perm.cons a ?_
      rw [← List.append_assoc]
      refine (List.perm_append_comm.append_right _).trans ?_
      rw [List.append_assoc]
      exact (ih (n + 1)).append_left t

theorem seedFrom_elem (files : List (List α)) :
    ∀ n p, p ∈ seedFrom n files →
      n ≤ p.2 ∧ ∃ t, files[p.2 - n]? = some (p.1 :: t) := by
  induction files with
  | nil => intro n p hp; simp [seedFrom] at hp
  | cons f fs ih =>
    intro n p hp
    cases f with
    | nil =>
      simp only [seedFrom] at hp
      obtain ⟨h1, t, h2⟩ := ih (n + 1) p hp
      refine ⟨by omega, t, ?_⟩
      have he : p.2 - n = (p.2 - (n + 1)) + 1 := by omega
      rw [he]
      simpa using h2
    | cons a tf =>
      simp only [seedFrom, List.mem_cons] at hp
      rcases hp with hp | hp
      · subst hp
        exact ⟨le_refl _, tf, by simp⟩
      · obtain ⟨h1, t, h2⟩ := ih (n + 1) p hp
        refine ⟨by omega, t, ?_⟩
        have he : p.2 - n = (p.2 - (n + 1)) + 1 := by omega
        rw [he]
        simpa using h2

theorem seedFrom_cover (files : List (List α)) :
    ∀ n j, j < files.length → files.getD j [] ≠ [] →
      (n + j) ∈ (seedFrom n files).map Prod.snd := by
  induction files with
  | nil => intro n j hj; simp at hj
  | cons f fs ih =>
    intro n j hj hne
    cases j with
    | zero =>
      rw [List.getD_cons_zero] at hne
      cases f with
      | nil => exact absurd rfl hne
      | cons a t => simp [seedFrom]
    | succ j2 =>
      rw [List.getD_cons_succ] at hne
      have hj2 : j2 < fs.length := by simpa using hj
      have hm := ih (n + 1) j2 hj2 hne
      have he : n + (j2 + 1) = (n + 1) + j2 := by omega
      rw [he]
      cases f with
      | nil => simpa [seedFrom] using hm
      | cons a t =>
        simp only [seedFrom, List.map_cons, List.mem_cons]
        exact Or.inr hm

theorem tail_getD (files : List (List α)) (j : Nat) :
    (files.map List.tail).getD j [] = List.tail (files.getD j []) := by
  rw [List.getD_eq_getElem?_getD, List.getElem?_map, List.getD_eq_getElem?_getD]
  cases files[j]? <;> simp

/-- Each merge job emits a permutation of the concatenation of its source
files: nothing is lost or duplicated by the k-way heap merge. -/
theorem merge_worker_perm (files : List (List α)) :
    (merge_worker files).Perm files.flatten := by
  unfold merge_worker
  have hcover : ∀ j, j < (files.map List.tail).length →
      (files.map List.tail).getD j [] ≠ [] → j ∈ (seedFrom 0 files).map Prod.snd := by
    intro j hj hne
    rw [List.length_map] at hj
    rw [tail_getD] at hne
    have horig : files.getD j [] ≠ [] := by
      intro hcon
      rw [hcon] at hne
      exact hne rfl
    simpa using seedFrom_cover files 0 j hj horig
  exact (mergeLoop_perm (seedFrom 0 files) (files.map List.tail) hcover).trans
    (seedFrom_perm files 0)

/-- Each merge job's output is non-decreasing provided its sources are. -/
theorem merge_worker_sorted (files : List (List α))
    (hs : ∀ f ∈ files, List.Sorted (· ≤ ·) f) :
    List.Sorted (· ≤ ·) (merge_worker files) := by
  unfold merge_worker
  have hbound : ∀ p ∈ seedFrom 0 files, ∀ b ∈ (files.map List.tail).getD p.2 [], p.1 ≤ b := by
    intro p hp b hb
    obtain ⟨-, t, hget⟩ := seedFrom_elem files 0 p hp
    rw [Nat.sub_zero] at hget
    rw [tail_getD, List.getD_eq_getElem?_getD, hget] at hb
    simp only [Option.getD_some, List.tail_cons] at hb
    have hf : (p.1 :: t) ∈ files := List.getElem?_mem hget
    exact (List.sorted_cons.mp (hs _ hf)).1 b hb
  have hsorted : ∀ f ∈ files.map List.tail, List.Sorted (· ≤ ·) f := by
    intro f hf
    obtain ⟨g, hg, rfl⟩ := List.mem_map.mp hf
    exact (hs g hg).tail
  exact (mergeLoop_sorted (seedFrom 0 files) (files.map List.tail) hbound hsorted).1

theorem mergeLoop_single (t : List α) : ∀ a : α, mergeLoop [(a, 0)] [t] = a :: t := by
  induction t with
  | nil =>
    intro a
    rw [mergeLoop_eq_exhausted [(a, 0)] [[]] a 0 [] (by simp [popMin]) (by simp)]
    rw [mergeLoop_eq_done [] [[]] (by simp [popMin])]
  | cons b bs ih =>
    intro a
    rw [mergeLoop_eq_push [(a, 0)] [b :: bs] a 0 [] b bs (by simp [popMin]) (by simp)]
    simp only [List.set_cons_zero]
    rw [ih b]

/-- A merge job over a single source file copies it verbatim, sorted or
not: the one-entry heap is repeatedly refilled from the same source. -/
theorem merge_worker_copy (f : List α) : merge_worker [f] = f := by
  cases f with
  | nil =>
    unfold merge_worker
    rw [show seedFrom 0 [([] : List α)] = [] from rfl]
    exact mergeLoop_eq_done _ _ (by simp [popMin])
  | cons a t =>
    unfold merge_worker
    rw [show seedFrom 0 [a :: t] = [(a, 0)] from rfl]
    simpa using mergeLoop_single t a

theorem ranges_slices_flatten (k : Nat) (files : List (List α)) (hk : 0 < k) :
    ∀ first, ((mergeRangesGo k files.length first).map (slice files)).flatten
      = files.drop first := by
  intro first
  induction first using mergeRangesGo.induct k files.length with
  | case1 first h ih =>
    rw [mergeRangesGo, dif_pos h, List.map_cons, List.flatten_cons, ih]
    show (files.drop first).take (min files.length (first + k) - first) ++
      files.drop (min files.length (first + k)) = files.drop first
    have h2 : files.drop (min files.length (first + k)) =
        (files.drop first).drop (min files.length (first + k) - first) := by
      rw [List.drop_drop]
      congr 1
      omega
    rw [h2, List.take_append_drop]
  | case2 first h =>
    rw [mergeRangesGo, dif_neg h]
    push_neg at h
    rcases Nat.lt_or_ge first files.length with hc | hc
    · exact absurd hk (by simpa using h hc)
    · simp [List.drop_eq_nil_of_le hc]

theorem flatten_perm_congr {β : Type} (l : List β) (f g : β → List α)
    (h : ∀ x ∈ l, (f x).Perm (g x)) :
    ((l.map f).flatten).Perm ((l.map g).flatten) := by
  induction l with
  | nil => exact List.Perm.refl _
  | cons x xs ih =>
    simp only [List.map_cons, List.flatten_cons]
    exact (h x (List.mem_cons_self x xs)).append
      (ih (fun y hy => h y (List.mem_cons_of_mem x hy)))

/-- One merge stage preserves the multiset of records across all files. -/
theorem merge_invoke_flatten_perm (k : Nat) (files : List (List α)) (hk : 0 < k) :
    (merge_invoke k files).flatten.Perm files.flatten := by
  unfold merge_invoke
  refine (flatten_perm_congr (mergeRangesGo k files.length 0)
      (fun r => merge_worker (slice files r)) (fun r => (slice files r).flatten)
      (fun r _ => merge_worker_perm (slice files r))).trans ?_
  have e1 : (mergeRangesGo k files.length 0).map (fun r => (slice files r).flatten)
      = ((mergeRangesGo k files.length 0).map (slice files)).map List.flatten := by
    rw [List.map_map]
    rfl
  rw [e1, ← List.flatten_flatten, ranges_slices_flatten k files hk 0, List.drop_zero]

/-- One merge stage keeps every file internally sorted. -/
theorem merge_invoke_sorted (k : Nat) (files : List (List α))
    (hs : ∀ f ∈ files, List.Sorted (· ≤ ·) f) :
    ∀ g ∈ merge_invoke k files, List.Sorted (· ≤ ·) g := by
  intro g hg
  unfold merge_invoke at hg
  obtain ⟨r, hr, rfl⟩ := List.mem_map.mp hg
  refine merge_worker_sorted (slice files r) ?_
  intro f hf
  refine hs f ?_
  unfold slice at hf
  exact List.mem_of_mem_drop (List.mem_of_mem_take hf)

theorem mergeUntilOne_flatten_perm (k : Nat) (files : List (List α)) :
    (mergeUntilOne k files).flatten.Perm files.flatten := by
  induction files using @mergeUntilOne.induct α _ k with
  | case1 files h ih =>
    rw [mergeUntilOne, dif_pos h]
    exact ih.trans (merge_invoke_flatten_perm k files (by omega))
  | case2 files h =>
    rw [mergeUntilOne, dif_neg h]

theorem mergeUntilOne_sorted (k : Nat) (files : List (List α)) :
    (∀ f ∈ files, List.Sorted (· ≤ ·) f) →
    ∀ f ∈ mergeUntilOne k files, List.Sorted (· ≤ ·) f := by
  induction files using @mergeUntilOne.induct α _ k with
  | case1 files h ih =>
    intro hs
    rw [mergeUntilOne, dif_pos h]
    exact ih (merge_invoke_sorted k files hs)
  | case2 files h =>
    intro hs
    rw [mergeUntilOne, dif_neg h]
    exact hs

theorem mergeUntilOne_length (k : Nat) (files : List (List α)) :
    2 ≤ k → 1 ≤ files.length → (mergeUntilOne k files).length = 1 := by
  induction files using @mergeUntilOne.induct α _ k with
  | case1 files h ih =>
    intro hk h1
    rw [mergeUntilOne, dif_pos h]
    refine ih hk ?_
    rw [merge_invoke_length k files (by omega), Nat.one_le_div_iff (by omega)]
    omega
  | case2 files h =>
    intro hk h1
    rw [mergeUntilOne, dif_neg h]
    push_neg at h
    have hlen : files.length ≤ 1 := by
      by_contra hgt
      exact absurd hk (by simpa using h (by omega))
    omega

theorem split_go_flatten (len : α → Nat) (cap : Nat) :
    ∀ (rest : List α) (curSize : Nat) (curVec : List α),
      (split_go len cap curSize curVec rest).flatten = curVec ++ rest := by
  intro rest
  induction rest with
  | nil =>
    intro s v
    simp only [split_go]
    by_cases hv : v.isEmpty
    · rw [if_pos hv]
      simp [List.isEmpty_iff.mp hv]
    · rw [if_neg hv]
      simp
  | cons d rest ih =>
    intro s v
    simp only [split_go]
    by_cases hcap : s + len d > cap
    · rw [if_pos hcap]
      by_cases hv : v.isEmpty
      · rw [if_pos hv, ih]
        rw [List.isEmpty_iff.mp hv]
        simp
      · rw [if_neg hv, List.flatten_cons, ih]
        simp
    · rw [if_neg hcap, ih]
      simp

theorem split_go_chunks (len : α → Nat) (cap : Nat) :
    ∀ (rest : List α) (curSize : Nat) (curVec : List α),
      curSize = (curVec.map len).sum →
      ((curVec.map len).sum ≤ cap ∨ curVec.length ≤ 1) →
      ∀ c ∈ split_go len cap curSize curVec rest,
        c ≠ [] ∧ ((c.map len).sum ≤ cap ∨ c.length = 1) := by
  intro rest
  induction rest with
  | nil =>
    intro s v hs hinv c hc
    simp only [split_go] at hc
    by_cases hv : v.isEmpty
    · rw [if_pos hv] at hc
      simp at hc
    · rw [if_neg hv] at hc
      simp at hc
      subst hc
      have hne : c ≠ [] := by simpa [List.isEmpty_iff] using hv
      refine ⟨hne, ?_⟩
      rcases hinv with hinv | hinv
      · exact Or.inl hinv
      · right
        have : 0 < c.length := List.length_pos.mpr hne
        omega
  | cons d rest ih =>
    intro s v hs hinv c hc
    simp only [split_go] at hc
    by_cases hcap : s + len d > cap
    · rw [if_pos hcap] at hc
      by_cases hv : v.isEmpty
      · rw [if_pos hv] at hc
        exact ih (len d) [d] (by simp) (by right; simp) c hc
      · rw [if_neg hv] at hc
        rcases List.mem_cons.mp hc with hc | hc
        · subst hc
          have hne : c ≠ [] := by simpa [List.isEmpty_iff] using hv
          refine ⟨hne, ?_⟩
          rcases hinv with hinv | hinv
          · exact Or.inl hinv
          · right
            have : 0 < c.length := List.length_pos.mpr hne
            omega
        · exact ih (len d) [d] (by simp) (by right; simp) c hc
    · rw [if_neg hcap] at hc
      refine ih (s + len d) (v ++ [d]) ?_ ?_ c hc
      · rw [hs, List.map_append, List.sum_append]
        simp
      · left
        rw [List.map_append, List.sum_append]
        simp only [List.map_cons, List.map_nil, List.sum_cons, List.sum_nil]
        omega

/-- The chunks submitted during the split stage concatenate exactly to the
input: no record is lost, duplicated or reordered across chunk boundaries. -/
theorem split_invoke_flatten (len : α → Nat) (cap : Nat) (xs : List α) :
    (split_invoke len cap xs).flatten = xs := by
  unfold split_invoke
  rw [split_go_flatten]
  simp

/-- Every submitted chunk is non-empty, and its total estimated size is
within the cap unless it is a single (oversized) record. -/
theorem split_invoke_chunks (len : α → Nat) (cap : Nat) (xs : List α) :
    ∀ c ∈ split_invoke len cap xs, c ≠ [] ∧ ((c.map len).sum ≤ cap ∨ c.length = 1) :=
  split_go_chunks len cap xs 0 [] (by simp) (by left; simp)

theorem split_worker_sorted (c : List α) : List.Sorted (· ≤ ·) (split_worker c) := by
  unfold split_worker
  have htrans : ∀ (a b c2 : α), (fun x y => decide (x ≤ y)) a b = true →
      (fun x y => decide (x ≤ y)) b c2 = true → (fun x y => decide (x ≤ y)) a c2 = true := by
    intro a b c2 hab hbc
    simp only [decide_eq_true_eq] at *
    exact le_trans hab hbc
  have htotal : ∀ (a b : α),
      ((fun x y => decide (x ≤ y)) a b || (fun x y => decide (x ≤ y)) b a) = true := by
    intro a b
    simpa using le_total a b
  have h := @List.sorted_mergeSort α (fun x y => decide (x ≤ y)) htrans htotal c
  refine h.imp ?_
  intro a b hab
  simpa using hab

theorem split_worker_perm (c : List α) : (split_worker c).Perm c :=
  List.mergeSort_perm c _

/-- Full record-level pipeline correctness: with a merge fan-in of at least
two, `sort` reaches a single final run that is a sorted permutation of the
input (and in particular never hits the more-than-one-file panic in
`as_iter`). -/
theorem sortRecords_spec (len : α → Nat) (cap k : Nat) (xs : List α) (hk : 2 ≤ k) :
    ∃ out, sortRecords len cap k xs = some out ∧ out.Perm xs ∧
      List.Sorted (· ≤ ·) out := by
  unfold sortRecords
  have hperm0 : ((split_invoke len cap xs).map split_worker).flatten.Perm xs := by
    have h1 := flatten_perm_congr (split_invoke len cap xs) split_worker id
      (fun c hc => split_worker_perm c)
    rw [List.map_id] at h1
    rw [split_invoke_flatten] at h1
    exact h1
  have hsorted0 : ∀ f ∈ (split_invoke len cap xs).map split_worker,
      List.Sorted (· ≤ ·) f := by
    intro f hf
    obtain ⟨c, hc, rfl⟩ := List.mem_map.mp hf
    exact split_worker_sorted c
  by_cases h0 : (split_invoke len cap xs).map split_worker = []
  · rw [h0, mergeUntilOne, dif_neg (by simp)]
    refine ⟨[], rfl, ?_, List.sorted_nil⟩
    have hxs : xs = [] := by
      rw [h0] at hperm0
      simpa using hperm0.symm
    rw [hxs]
  · have h1 : 1 ≤ ((split_invoke len cap xs).map split_worker).length := by
      rcases List.exists_cons_of_ne_nil h0 with ⟨f, fs, he⟩
      rw [he]
      simp
    have hlen := mergeUntilOne_length k ((split_invoke len cap xs).map split_worker) hk h1
    obtain ⟨f, hf⟩ := List.length_eq_one.mp hlen
    rw [hf]
    refine ⟨f, rfl, ?_, ?_⟩
    · have hp := mergeUntilOne_flatten_perm k ((split_invoke len cap xs).map split_worker)
      rw [hf] at hp
      simp only [List.flatten_cons, List.flatten_nil, List.append_nil] at hp
      exact hp.trans hperm0
    · exact mergeUntilOne_sorted k ((split_invoke len cap xs).map split_worker)
        hsorted0 f (by rw [hf]; exact List.mem_cons_self _ _)

/-- Lines written by a worker for a sorted run (src/lib.rs lines 177-180
and 244-245): one line per record, `into_line` followed by the newline
separator that the list structure makes implicit. -/
def write_run (into_line : α → String) (run : List α) : List String :=
  run.map into_line

/-- Records parsed back from a run file by mapping `from_line` over its
lines (src/lib.rs lines 229-231 and 106). -/
def parse_run (from_line : String → α) (file : List String) : List α :=
  file.map from_line

/-- Line-level split stage: each submitted chunk is sorted in memory and
serialized to a stage-0 run file (src/lib.rs lines 166-186, 191-209). -/
def split_stage_lines (into_line : α → String) (len : α → Nat) (cap : Nat)
    (xs : List α) : List (List String) :=
  (split_invoke len cap xs).map (fun c => write_run into_line (split_worker c))

/-- Line-level merge job (src/lib.rs lines 224-259): parse every line of
every source file with `from_line`, heap-merge the records, and serialize
the output with `into_line`. -/
def merge_worker_lines (from_line : String → α) (into_line : α → String)
    (lfiles : List (List String)) : List String :=
  write_run into_line (merge_worker (lfiles.map (parse_run from_line)))

/-- Line-level model of `Sort::merge_invoke` (src/lib.rs lines 266-278). -/
def merge_invoke_lines (from_line : String → α) (into_line : α → String)
    (k : Nat) (lfiles : List (List String)) : List (List String) :=
  (mergeRangesGo k lfiles.length 0).map
    (fun r => merge_worker_lines from_line into_line (slice lfiles r))

theorem merge_invoke_lines_length_lt (from_line : String → α) (into_line : α → String)
    (k : Nat) (lfiles : List (List String)) (hk : 2 ≤ k) (hn : 1 < lfiles.length) :
    (merge_invoke_lines from_line into_line k lfiles).length < lfiles.length := by
  unfold merge_invoke_lines
  rw [List.length_map]
  exact mergeRangesGo_zero_lt k lfiles.length hk hn

/-- Line-level model of the merge loop of `Sort::sort` (src/lib.rs lines
332-338); see `mergeUntilOne` for the `k ≤ 1` caveat. -/
def mergeUntilOne_lines (from_line : String → α) (into_line : α → String)
    (k : Nat) (lfiles : List (List String)) : List (List String) :=
  if h : 1 < lfiles.length ∧ 2 ≤ k then
    mergeUntilOne_lines from_line into_line k
      (merge_invoke_lines from_line into_line k lfiles)
  else lfiles
termination_by lfiles.length
decreasing_by exact merge_invoke_lines_length_lt from_line into_line k lfiles h.2 h.1

/-- Line-level model of `Sort::sort` followed by `Sort::as_iter`: the lines
of the final run file, if the pipeline ends with at most one file. -/
def sort_lines (from_line : String → α) (into_line : α → String) (len : α → Nat)
    (cap k : Nat) (xs : List α) : Option (List String) :=
  as_iter (mergeUntilOne_lines from_line into_line k
    (split_stage_lines into_line len cap xs))

/-- Records yielded by the `SortedIter` obtained from a successful `sort`
(src/lib.rs lines 100-111): each line of the final run parsed with
`from_line`, in file order. -/
def extsort (from_line : String → α) (into_line : α → String) (len : α → Nat)
    (cap k : Nat) (xs : List α) : Option (List α) :=
  (sort_lines from_line into_line len cap k xs).map (parse_run from_line)

theorem parse_write (from_line : String → α) (into_line : α → String)
    (hrt : ∀ r, from_line (into_line r) = r) (run : List α) :
    parse_run from_line (write_run into_line run) = run := by
  unfold parse_run write_run
  rw [List.map_map]
  have hc : from_line ∘ into_line = id := funext hrt
  rw [hc, List.map_id]

theorem merge_worker_lines_sim (from_line : String → α) (into_line : α → String)
    (hrt : ∀ r, from_line (into_line r) = r) (rfiles : List (List α)) :
    merge_worker_lines from_line into_line (rfiles.map (write_run into_line)) =
      write_run into_line (merge_worker rfiles) := by
  unfold merge_worker_lines
  have hid : (rfiles.map (write_run into_line)).map (parse_run from_line) = rfiles := by
    rw [List.map_map]
    have h2 : (parse_run from_line ∘ write_run into_line) = id := by
      funext f
      exact parse_write from_line into_line hrt f
    rw [h2, List.map_id]
  rw [hid]

theorem slice_map {β γ : Type} (f : β → γ) (l : List β) (r : Nat × Nat) :
    slice (l.map f) r = (slice l r).map f := by
  unfold slice
  rw [List.map_take, List.map_drop]

theorem merge_invoke_lines_sim (from_line : String → α) (into_line : α → String)
    (hrt : ∀ r, from_line (into_line r) = r) (k : Nat) (rfiles : List (List α)) :
    merge_invoke_lines from_line into_line k (rfiles.map (write_run into_line)) =
      (merge_invoke k rfiles).map (write_run into_line) := by
  unfold merge_invoke_lines merge_invoke
  rw [List.length_map, List.map_map]
  refine List.map_congr_left ?_
  intro r hr
  show merge_worker_lines from_line into_line (slice (rfiles.map (write_run into_line)) r)
    = write_run into_line (merge_worker (slice rfiles r))
  rw [slice_map, merge_worker_lines_sim from_line into_line hrt]

theorem mergeUntilOne_lines_sim (from_line : String → α) (into_line : α → String)
    (hrt : ∀ r, from_line (into_line r) = r) (k : Nat) (rfiles : List (List α)) :
    mergeUntilOne_lines from_line into_line k (rfiles.map (write_run into_line)) =
      (mergeUntilOne k rfiles).map (write_run into_line) := by
  induction rfiles using @mergeUntilOne.induct α _ k with
  | case1 rfiles h ih =>
    rw [mergeUntilOne_lines, dif_pos (by simpa using h), mergeUntilOne, dif_pos h]
    rw [merge_invoke_lines_sim from_line into_line hrt]
    exact ih
  | case2 rfiles h =>
    rw [mergeUntilOne_lines, dif_neg (by simpa using h), mergeUntilOne, dif_neg h]

theorem as_iter_sim (into_line : α → String) (rfiles : List (List α)) :
    as_iter (rfiles.map (write_run into_line)) =
      (as_iter rfiles).map (write_run into_line) := by
  match rfiles with
  | [] => rfl
  | [f] => rfl
  | f :: g :: t => rfl

/-- When the codec round-trips, the line-level pipeline simulates the
record-level one exactly: serialization is invisible to the result. -/
theorem extsort_eq_sortRecords (from_line : String → α) (into_line : α → String)
    (len : α → Nat) (cap k : Nat)
    (hrt : ∀ r, from_line (into_line r) = r) (xs : List α) :
    extsort from_line into_line len cap k xs = sortRecords len cap k xs := by
  unfold extsort sort_lines sortRecords split_stage_lines
  have e0 : (split_invoke len cap xs).map (fun c => write_run into_line (split_worker c)) =
      ((split_invoke len cap xs).map split_worker).map (write_run into_line) := by
    rw [List.map_map]
    rfl
  rw [e0, mergeUntilOne_lines_sim from_line into_line hrt, as_iter_sim]
  cases as_iter (mergeUntilOne k ((split_invoke len cap xs).map split_worker)) with
  | none => rfl
  | some f =>
    simp only [Option.map_some']
    rw [parse_write from_line into_line hrt f]

/-- Model of `SortedIter::next` (src/lib.rs lines 100-111).  The state is
`none` when `as_iter` installed no `Lines` iterator (zero files), otherwise
the unread suffix of the `Lines` iterator, whose items are either a line or
an I/O error raised while reading. -/
def sorted_iter_next (from_line : String → α) :
    Option (List (Except IoError String)) →
      Option (Except IoError α) × Option (List (Except IoError String))
  | none => (none, none)
  | some [] => (none, some [])
  | some (ml :: rest) => (some (ml.map from_line), some rest)

/-- Outcome of one pooled job as seen by the first-error cell: either the
closure returned `Ok`, or it returned an error `e` and `Mutex::try_lock` on
the result cell succeeded (`true`) or failed (`false`). -/
inductive WorkerEv (ε : Type) where
  | ok : WorkerEv ε
  | err : ε → Bool → WorkerEv ε
deriving DecidableEq

/-- One worker's interaction with the first-error cell, from the closure
wrapper in `Sort::add_to_pool` (src/lib.rs lines 149-161): a successful
closure leaves the cell alone; a failing closure that acquires the try-lock
writes its error only if the cell still holds `Ok`; a failing closure that
cannot acquire the lock discards its error. -/
def cellStep {ε : Type} (cell : Option ε) : WorkerEv ε → Option ε
  | .ok => cell
  | .err e acq =>
    match cell with
    | some e0 => some e0
    | none => if acq then some e else none

/-- Cell contents after a serialized trace of worker completions, starting
from `Ok` (`none`). -/
def runCell {ε : Type} (evs : List (WorkerEv ε)) : Option ε :=
  evs.foldl cellStep none

/-- Model of `Sort::join_pool` (src/lib.rs lines 281-288): return the
recorded status and atomically swap the cell back to `Ok`
(`mem::replace(&mut result, Ok(()))`). -/
def join_pool {ε : Type} (evs : List (WorkerEv ε)) : Option ε × Option ε :=
  (runCell evs, none)

/-- Well-formedness of a serialized trace: `Mutex::try_lock` fails only
while another erring worker holds the mutex, and serializing that holder
before the failed attempt leaves the cell already holding an error at the
point of every failed acquisition. -/
def cellWF {ε : Type} (cell : Option ε) : List (WorkerEv ε) → Bool
  | [] => true
  | ev :: rest =>
    (match ev with
     | .err _ false => cell.isSome
     | _ => true) && cellWF (cellStep cell ev) rest

/-- Error of the first failing worker in a trace, if any. -/
def firstErr {ε : Type} : List (WorkerEv ε) → Option ε
  | [] => none
  | .err e _ :: _ => some e
  | .ok :: rest => firstErr rest

theorem foldl_cellStep_some {ε : Type} (c : ε) :
    ∀ evs : List (WorkerEv ε), evs.foldl cellStep (some c) = some c := by
  intro evs
  induction evs with
  | nil => rfl
  | cons ev rest ih =>
    rw [List.foldl_cons]
    have hstep : cellStep (some c) ev = some c := by
      cases ev with
      | ok => rfl
      | err e acq => rfl
    rw [hstep, ih]

/-- Model of Rust `Result<T, E>` records handled by the composite codec. -/
inductive RResult (τ ε : Type) where
  | ok : τ → RResult τ ε
  | err : ε → RResult τ ε
deriving DecidableEq

/-- `line_len` of the composite codec (src/lines.rs lines 33-38): one byte
for the branch marker plus the inner estimate. -/
def result_line_len {τ ε : Type} (tl : τ → Nat) (el : ε → Nat) : RResult τ ε → Nat
  | .ok v => 1 + tl v
  | .err e => 1 + el e

/-- `into_line` of the composite codec (src/lines.rs lines 40-45): prefix
`'1'` for the success branch and `'0'` for the error branch, then the inner
encoding.  Lines are modelled as lists of characters. -/
def result_into_line {τ ε : Type} (ti : τ → List Char) (ei : ε → List Char) :
    RResult τ ε → List Char
  | .ok v => '1' :: ti v
  | .err e => '0' :: ei e

/-- `from_line` of the composite codec (src/lines.rs lines 48-56): dispatch
on `line.chars().next()`; a `'1'` parses the remainder with the success
codec, a `'0'` with the error codec, and any other first character —
including the empty line — yields `ErrorKind::InvalidInput`. -/
def result_from_line {τ ε : Type} (tf : List Char → Except IoError τ)
    (ef : List Char → Except IoError ε) (line : List Char) :
    Except IoError (RResult τ ε) :=
  match line with
  | [] => .error .invalidInput
  | c :: rest =>
    if c = '1' then (tf rest).map RResult.ok
    else if c = '0' then (ef rest).map RResult.err
    else .error .invalidInput

/-- Inner loop of `SplitIter::next` (src/split.rs lines 50-67): starting
from the lookahead `last`, write the current group to the temporary file
and stop at the first source record different from the one just written
(or at end of input).  Returns the group, the new lookahead and the unread
suffix of the source iterator. -/
def split_next (last : α) : List α → List α × (Option α × List α)
  | [] => ([last], (none, []))
  | x :: xs =>
    if x = last then
      ((split_next x xs).1.cons last, (split_next x xs).2)
    else ([last], (some x, xs))

theorem split_next_measure (last : α) (rest : List α) :
    (split_next last rest).2.2.length +
      (match (split_next last rest).2.1 with | none => 0 | some _ => 1) ≤
      rest.length := by
  induction rest generalizing last with
  | nil => simp [split_next]
  | cons x xs ih =>
    simp only [split_next]
    by_cases hx : x = last
    · rw [if_pos hx]
      have h := ih x
      simp only [List.length_cons]
      omega
    · rw [if_neg hx]
      simp

/-- Iterated `SplitIter::next` (src/split.rs lines 43-77): the list of all
groups produced before the lookahead becomes empty. -/
def split_all (la : Option α) (rest : List α) : List (List α) :=
  match la with
  | none => []
  | some last =>
    (split_next last rest).1 ::
      split_all (split_next last rest).2.1 (split_next last rest).2.2
termination_by rest.length + (match la with | none => 0 | some _ => 1)
decreasing_by
  rename_i last
  have h := split_next_measure last rest
  omega

/-- Model of `split` (src/split.rs lines 84-91): pull one lookahead record
from the source, then group. -/
def split (l : List α) : List (List α) :=
  split_all l.head? l.tail

/-- Inner loop of `SplitIter::next` with a fallible writer (src/split.rs
lines 50-67): `wr r = some e` models `writer.write_all` failing with error
`e` while writing record `r`.  The `return Some(Err(err))` at line 60 fires
after `self.last.take()` has cleared the lookahead and after
`self.iter.next()` has already consumed the next source record, which is a
local variable that is then dropped. -/
def split_next_f {ε : Type} (wr : α → Option ε) (last : α) :
    List α → Except ε (List α) × (Option α × List α)
  | [] =>
    match wr last with
    | some e => (.error e, (none, []))
    | none => (.ok [last], (none, []))
  | x :: xs =>
    match wr last with
    | some e => (.error e, (none, xs))
    | none =>
      if x = last then
        ((split_next_f wr x xs).1.map (List.cons last), (split_next_f wr x xs).2)
      else (.ok [last], (some x, xs))

/-- Model of one call of `SplitIter::next` (src/split.rs lines 43-77) with
the fallible writer: `none` when the lookahead is empty, otherwise the
group or the first write error, together with the successor state. -/
def split_iter_next_f {ε : Type} (wr : α → Option ε) :
    Option α × List α → Option (Except ε (List α)) × (Option α × List α)
  | (none, rest) => (none, (none, rest))
  | (some last, rest) =>
    (some (split_next_f wr last rest).1, (split_next_f wr last rest).2)

theorem split_next_spec (last : α) (rest : List α) :
    (split_next last rest).1 ++
        ((split_next last rest).2.1.toList ++ (split_next last rest).2.2) = last :: rest ∧
      (split_next last rest).1 ≠ [] ∧
      (∀ y ∈ (split_next last rest).1, y = last) ∧
      (∀ x, (split_next last rest).2.1 = some x → x ≠ last) ∧
      ((split_next last rest).2.1 = none → (split_next last rest).2.2 = []) := by
  induction rest generalizing last with
  | nil =>
    exact ⟨rfl, by simp [split_next], by simp [split_next], by simp [split_next],
      by simp [split_next]⟩
  | cons x xs ih =>
    by_cases hx : x = last
    · obtain ⟨ih1, ih2, ih3, ih4, ih5⟩ := ih x
      simp only [split_next, if_pos hx]
      refine ⟨?_, by simp, ?_, ?_, ?_⟩
      · show last :: ((split_next x xs).1 ++ _) = last :: x :: xs
        rw [ih1]
      · intro y hy
        rcases List.mem_cons.mp hy with hy | hy
        · exact hy
        · rw [ih3 y hy, hx]
      · intro z hz
        rw [← hx]
        exact ih4 z hz
      · exact ih5
    · simp only [split_next, if_neg hx]
      refine ⟨rfl, by simp, by simp, ?_, by simp⟩
      intro z hz
      simp at hz
      rw [hz] at hx
      exact hx

theorem split_next_head (last : α) (rest : List α) :
    (split_next last rest).1.head? = some last := by
  cases rest with
  | nil => rfl
  | cons x xs =>
    simp only [split_next]
    by_cases hx : x = last
    · rw [if_pos hx]
      rfl
    · rw [if_neg hx]
      rfl

theorem split_all_flatten :
    ∀ (la : Option α) (rest : List α), (la = none → rest = []) →
      (split_all la rest).flatten = la.toList ++ rest := by
  intro la rest
  induction la, rest using split_all.induct with
  | case1 rest =>
    intro h
    rw [h rfl, split_all]
    rfl
  | case2 rest last ih =>
    intro _
    obtain ⟨h1, -, -, -, h5⟩ := split_next_spec last rest
    have he : split_all (some last) rest =
        (split_next last rest).1 ::
          split_all (split_next last rest).2.1 (split_next last rest).2.2 := by
      rw [split_all]
    rw [he, List.flatten_cons, ih h5, h1]
    rfl

theorem split_all_groups :
    ∀ (la : Option α) (rest : List α),
      ∀ g ∈ split_all la rest, g ≠ [] ∧ ∀ x ∈ g, ∀ y ∈ g, x = y := by
  intro la rest
  induction la, rest using split_all.induct with
  | case1 rest => simp [split_all]
  | case2 rest last ih =>
    intro g hg
    rw [split_all] at hg
    obtain ⟨-, h2, h3, -, -⟩ := split_next_spec last rest
    rcases List.mem_cons.mp hg with hg | hg
    · subst hg
      refine ⟨h2, ?_⟩
      intro x hx y hy
      rw [h3 x hx, h3 y hy]
    · exact ih g hg

theorem split_all_heads :
    ∀ (la : Option α) (rest : List α),
      List.Chain' (fun g1 g2 => g1.head? ≠ g2.head?) (split_all la rest) := by
  intro la rest
  induction la, rest using split_all.induct with
  | case1 rest => simp [split_all]
  | case2 rest last ih =>
    rw [split_all]
    obtain ⟨-, -, -, h4, -⟩ := split_next_spec last rest
    rw [List.chain'_cons']
    refine ⟨?_, ih⟩
    intro g2 hg2
    rcases hla : (split_next last rest).2.1 with - | x
    · rw [hla] at hg2
      rw [show split_all (none : Option α) (split_next last rest).2.2 = [] from by
        rw [split_all]] at hg2
      simp at hg2
    · rw [hla] at hg2
      rw [show split_all (some x) (split_next last rest).2.2 =
          (split_next x (split_next last rest).2.2).1 ::
            split_all (split_next x (split_next last rest).2.2).2.1
              (split_next x (split_next last rest).2.2).2.2 from by rw [split_all]] at hg2
      simp only [List.head?_cons, Option.mem_def, Option.some.injEq] at hg2
      subst hg2
      rw [split_next_head, split_next_head]
      intro hcon
      simp only [Option.some.injEq] at hcon
      exact h4 x hla hcon.symm

theorem mergeRangesGo_mem (k count : Nat) :
    ∀ first, ∀ r ∈ mergeRangesGo k count first,
      r.1 < r.2 ∧ r.2 - r.1 ≤ k ∧ r.2 ≤ count := by
  intro first
  induction first using mergeRangesGo.induct k count with
  | case1 first h ih =>
    intro r hr
    rw [mergeRangesGo, dif_pos h] at hr
    obtain ⟨h1, h2⟩ := h
    rcases List.mem_cons.mp hr with hr | hr
    · subst hr
      refine ⟨?_, ?_, ?_⟩ <;> dsimp only <;> omega
    · exact ih r hr
  | case2 first h =>
    intro r hr
    rw [mergeRangesGo, dif_neg h] at hr
    simp at hr

/-- Decides whether a worker outcome is an error. -/
def WorkerEv.isErr {ε : Type} : WorkerEv ε → Bool
  | .ok => false
  | .err _ _ => true

theorem firstErr_eq_none {ε : Type} :
    ∀ evs : List (WorkerEv ε), firstErr evs = none ↔ ∀ ev ∈ evs, ev.isErr = false := by
  intro evs
  induction evs with
  | nil => simp [firstErr]
  | cons ev rest ih =>
    cases ev with
    | ok => simpa [firstErr, WorkerEv.isErr] using ih
    | err e acq => simp [firstErr, WorkerEv.isErr]

theorem runCell_wf {ε : Type} :
    ∀ evs : List (WorkerEv ε), cellWF none evs = true → runCell evs = firstErr evs := by
  intro evs
  induction evs with
  | nil => intro h; rfl
  | cons ev rest ih =>
    intro h
    simp only [cellWF, Bool.and_eq_true] at h
    obtain ⟨h1, h2⟩ := h
    cases ev with
    | ok =>
      show List.foldl cellStep (cellStep none .ok) rest = firstErr (WorkerEv.ok :: rest)
      exact ih h2
    | err e acq =>
      cases acq with
      | false => simp at h1
      | true =>
        show List.foldl cellStep (cellStep none (.err e true)) rest = _
        rw [show cellStep (none : Option ε) (.err e true) = some e from rfl]
        rw [foldl_cellStep_some]
        rfl

theorem split_next_f_error {ε : Type} (wr : α → Option ε) :
    ∀ (rest : List α) (last : α) (e : ε) (la : Option α) (r : List α),
      split_next_f wr last rest = (.error e, (la, r)) →
      la = none ∧
        ∃ pre fail dropped, last :: rest = pre ++ fail :: (dropped ++ r) ∧
          (∀ y ∈ pre, wr y = none) ∧ wr fail = some e ∧
          dropped.length ≤ 1 ∧ (dropped = [] → r = []) := by
  intro rest
  induction rest with
  | nil =>
    intro last e la r h
    simp only [split_next_f] at h
    rcases hw : wr last with - | e2 <;> rw [hw] at h <;> dsimp only at h
    · simp at h
    · simp only [Prod.mk.injEq, Except.error.injEq] at h
      obtain ⟨h1, h2, h3⟩ := h
      subst h1
      subst h2
      subst h3
      refine ⟨rfl, [], last, [], by simp, by simp, hw, by simp, fun _ => rfl⟩
  | cons x xs ih =>
    intro last e la r h
    simp only [split_next_f] at h
    rcases hw : wr last with - | e2 <;> rw [hw] at h <;> dsimp only at h
    · by_cases hx : x = last
      · rw [if_pos hx] at h
        have hfst := congrArg Prod.fst h
        have hsnd := congrArg Prod.snd h
        dsimp only at hfst hsnd
        rcases hres : (split_next_f wr x xs).1 with e3 | g <;> rw [hres] at hfst
        · simp only [Except.map, Except.error.injEq] at hfst
          have heq : split_next_f wr x xs = (.error e, (la, r)) := by
            have h1 : (split_next_f wr x xs).1 = Except.error e := by rw [hres, hfst]
            rw [← h1, ← hsnd]
          obtain ⟨hla, pre, fail, dropped, hdec, hpre, hfail, hlen, himp⟩ :=
            ih x e la r heq
          refine ⟨hla, last :: pre, fail, dropped, ?_, ?_, hfail, hlen, himp⟩
          · rw [List.cons_append, ← hdec]
          · intro y hy
            rcases List.mem_cons.mp hy with hy | hy
            · subst hy
              exact hw
            · exact hpre y hy
        · simp [Except.map] at hfst
      · rw [if_neg hx] at h
        simp at h
    · simp only [Prod.mk.injEq, Except.error.injEq] at h
      obtain ⟨h1, h2, h3⟩ := h
      subst h1
      subst h2
      subst h3
      refine ⟨rfl, [], last, [x], by simp, by simp, hw, by simp, ?_⟩
      intro hcon
      simp at hcon

/-- C1: for every finite input sequence and every configuration with
`num_merge ≥ 2` and `num_threads ≥ 1`, if the codec satisfies
`from_line (into_line r) = r` for every record and no I/O error occurs,
then `sort` returns an iterator that yields a permutation of the input in
non-decreasing order with respect to the record ordering.  The thread count
does not enter the functional model — the jobs of one stage read and write
disjoint files, so every pool size of at least one produces the same
files. -/
theorem extsort_sorted_permutation (from_line : String → α) (into_line : α → String)
    (len : α → Nat) (cap k t : Nat) (hk : 2 ≤ k) (ht : 1 ≤ t)
    (hrt : ∀ r, from_line (into_line r) = r) (xs : List α) :
    ∃ out, extsort from_line into_line len cap k xs = some out ∧
      out.Perm xs ∧ List.Sorted (· ≤ ·) out := by
  rw [extsort_eq_sortRecords from_line into_line len cap k hrt xs]
  exact sortRecords_spec len cap k xs hk

theorem extsort_sorted_permutation_witness :
    ∃ out, extsort (fun s => s.data.length) (fun n => String.mk (List.replicate n 'a'))
        (fun n => n) 1 2 [2, 0, 1] = some out ∧
      out.Perm [2, 0, 1] ∧ List.Sorted (· ≤ ·) out :=
  extsort_sorted_permutation (fun s => s.data.length)
    (fun n => String.mk (List.replicate n 'a')) (fun n => n) 1 2 1
    (by decide) (by decide) (fun r => by simp) [2, 0, 1]

/-- C2 counterexample: with `num_merge = 1` and a stage of two run files,
the next stage again holds two run files, so an iteration of the merge loop
does not strictly decrease the run-file count (the source loop would run
forever); the claim fails for this configuration. -/
theorem merge_stage_constant_at_fanin_one :
    (merge_invoke 1 [[(0 : Nat)], [1]]).length = 2 ∧
      ¬(merge_invoke 1 [[(0 : Nat)], [1]]).length < [[(0 : Nat)], [1]].length := by
  have h : (merge_invoke 1 [[(0 : Nat)], [1]]).length = 2 := by
    simp [merge_invoke, mergeRangesGo]
  refine ⟨h, ?_⟩
  rw [h]
  simp

/-- C2 (amended to `num_merge ≥ 2`): each iteration of the merge loop in
`sort` strictly decreases the run-file count while it exceeds one, and the
loop terminates with exactly one run file. -/
theorem merge_stage_strict_decrease (k : Nat) (files : List (List α)) (hk : 2 ≤ k) :
    (1 < files.length → (merge_invoke k files).length < files.length) ∧
      (1 ≤ files.length → (mergeUntilOne k files).length = 1) :=
  ⟨fun h => merge_invoke_length_lt k files hk h,
   fun h => mergeUntilOne_length k files hk h⟩

theorem merge_stage_strict_decrease_witness :
    (merge_invoke 2 [[(0 : Nat)], [1], [2]]).length < 3 ∧
      (mergeUntilOne 2 [[(0 : Nat)], [1], [2]]).length = 1 := by
  have h := merge_stage_strict_decrease 2 [[(0 : Nat)], [1], [2]] (by decide)
  exact ⟨h.1 (by decide), h.2 (by decide)⟩

/-- C3: every run file produced at any stage is internally sorted — a split
worker sorts its chunk before serializing, and a merge worker popping a
min-heap seeded from sorted sources writes a non-decreasing sequence; in
both cases the records parsed back from the file's lines, in file order,
are non-decreasing. -/
theorem run_files_nondecreasing (from_line : String → α) (into_line : α → String)
    (hrt : ∀ r, from_line (into_line r) = r) :
    (∀ chunk : List α,
      List.Sorted (· ≤ ·) (parse_run from_line (write_run into_line (split_worker chunk)))) ∧
    (∀ lfiles : List (List String),
      (∀ lf ∈ lfiles, List.Sorted (· ≤ ·) (parse_run from_line lf)) →
      List.Sorted (· ≤ ·)
        (parse_run from_line (merge_worker_lines from_line into_line lfiles))) := by
  constructor
  · intro chunk
    rw [parse_write from_line into_line hrt]
    exact split_worker_sorted chunk
  · intro lfiles hs
    unfold merge_worker_lines
    rw [parse_write from_line into_line hrt]
    refine merge_worker_sorted _ ?_
    intro f hf
    obtain ⟨lf, hlf, rfl⟩ := List.mem_map.mp hf
    exact hs lf hlf

theorem run_files_nondecreasing_witness :
    List.Sorted (· ≤ ·) (parse_run (fun s => s.data.length)
      (write_run (fun n => String.mk (List.replicate n 'a')) (split_worker [2, 0, 1]))) ∧
    List.Sorted (· ≤ ·) (parse_run (fun s => s.data.length)
      (merge_worker_lines (fun s => s.data.length)
        (fun n => String.mk (List.replicate n 'a')) [])) := by
  have h := run_files_nondecreasing (fun s => s.data.length)
    (fun n => String.mk (List.replicate n 'a')) (fun r => by simp)
  exact ⟨h.1 [2, 0, 1], h.2 [] (by simp)⟩

/-- C4: for a merge stage over `N ≥ 2` files with fan-in `k`, the
coordinator partitions `[0, N)` into contiguous non-empty ranges of length
at most `k` (their slices concatenate back to the stage, in order), the
next stage holds exactly `⌈N / k⌉` files, the `j`-th output file is the
merge of the `j`-th range, and a one-file range is merged as a copy. -/
theorem merge_stage_partition (k : Nat) (files : List (List α)) (hk : 1 ≤ k)
    (hN : 2 ≤ files.length) :
    (∀ r ∈ mergeRangesGo k files.length 0, r.1 < r.2 ∧ r.2 - r.1 ≤ k) ∧
    ((mergeRangesGo k files.length 0).map (slice files)).flatten = files ∧
    (merge_invoke k files).length = (files.length + k - 1) / k ∧
    (∀ j : Nat, (merge_invoke k files)[j]? =
      ((mergeRangesGo k files.length 0)[j]?).map
        (fun r => merge_worker (slice files r))) ∧
    (∀ f : List α, merge_worker [f] = f) := by
  refine ⟨?_, ?_, merge_invoke_length k files hk, ?_, merge_worker_copy⟩
  · intro r hr
    obtain ⟨h1, h2, h3⟩ := mergeRangesGo_mem k files.length 0 r hr
    exact ⟨h1, h2⟩
  · rw [ranges_slices_flatten k files hk 0, List.drop_zero]
  · intro j
    unfold merge_invoke
    rw [List.getElem?_map]

theorem merge_stage_partition_witness :
    (merge_invoke 2 [[(0 : Nat)], [1], [2]]).length = (3 + 2 - 1) / 2 ∧
      merge_worker [[(7 : Nat)]] = [7] := by
  have h := merge_stage_partition 2 [[(0 : Nat)], [1], [2]] (by decide) (by decide)
  exact ⟨h.2.2.1, h.2.2.2.2 [7]⟩

/-- C5: the split stage emits exactly the input, in order, cut into
non-empty chunks; every chunk respects the soft cap unless it is a single
record, and an oversized record always forms a one-record chunk of its
own. -/
theorem split_chunk_policy (len : α → Nat) (cap : Nat) (xs : List α) :
    (split_invoke len cap xs).flatten = xs ∧
    (∀ c ∈ split_invoke len cap xs, c ≠ [] ∧ ((c.map len).sum ≤ cap ∨ c.length = 1)) ∧
    (∀ r ∈ xs, cap < len r → [r] ∈ split_invoke len cap xs) := by
  refine ⟨split_invoke_flatten len cap xs, split_invoke_chunks len cap xs, ?_⟩
  intro r hr hbig
  have hr2 : r ∈ (split_invoke len cap xs).flatten := by
    rw [split_invoke_flatten]
    exact hr
  obtain ⟨c, hc, hrc⟩ := List.mem_flatten.mp hr2
  obtain ⟨hne, hcase⟩ := split_invoke_chunks len cap xs c hc
  rcases hcase with hcase | hcase
  · exfalso
    have hle : len r ≤ (c.map len).sum :=
      List.single_le_sum (fun x _ => Nat.zero_le x) (len r)
        (List.mem_map.mpr ⟨r, hrc, rfl⟩)
    omega
  · obtain ⟨a, ha⟩ := List.length_eq_one.mp hcase
    subst ha
    simp at hrc
    subst hrc
    exact hc

theorem split_chunk_policy_witness :
    (split_invoke (fun n => n) 3 [5, 1]).flatten = [5, 1] ∧
      [5] ∈ split_invoke (fun n => n) 3 [5, 1] := by
  have h := split_chunk_policy (fun n => n) 3 [5, 1]
  exact ⟨h.1, h.2.2 5 (by decide) (by decide)⟩

/-- C6: starting from `Ok`, a worker's error is recorded only when the
non-blocking acquisition succeeds and the cell still holds `Ok`; under the
serialization discipline of the mutex (a failed `try_lock` means another
erring worker already left an error in the cell), `join_pool` returns the
first reported error — `Err` exactly when some worker erred — and resets
the cell to `Ok`. -/
theorem first_error_cell_spec {ε : Type} (evs : List (WorkerEv ε))
    (hwf : cellWF none evs = true) :
    join_pool evs = (firstErr evs, none) ∧
      (firstErr evs = none ↔ ∀ ev ∈ evs, ev.isErr = false) := by
  constructor
  · unfold join_pool
    rw [runCell_wf evs hwf]
  · exact firstErr_eq_none evs

theorem first_error_cell_spec_witness :
    join_pool [WorkerEv.ok, WorkerEv.err (3 : Nat) true, WorkerEv.err 5 false, WorkerEv.ok] =
      (firstErr [WorkerEv.ok, WorkerEv.err (3 : Nat) true, WorkerEv.err 5 false,
        WorkerEv.ok], none) ∧
    (firstErr [WorkerEv.ok, WorkerEv.err (3 : Nat) true, WorkerEv.err 5 false,
        WorkerEv.ok] = none ↔
      ∀ ev ∈ [WorkerEv.ok, WorkerEv.err (3 : Nat) true, WorkerEv.err 5 false, WorkerEv.ok],
        ev.isErr = false) :=
  first_error_cell_spec _ (by decide)

/-- C7: assuming the codec round-trips, the group iterators produced by
`split` concatenate back to the input exactly (each record yielded as
`Ok`), each group is non-empty with all records equal, and adjacent groups
have different leading records. -/
theorem split_groups_spec (from_line : String → Except IoError α)
    (into_line : α → String) (hrt : ∀ r, from_line (into_line r) = .ok r)
    (l : List α) :
    ((split l).map (fun g => (g.map into_line).map from_line)).flatten =
        l.map Except.ok ∧
      (∀ g ∈ split l, g ≠ [] ∧ ∀ x ∈ g, ∀ y ∈ g, x = y) ∧
      List.Chain' (fun g1 g2 => g1.head? ≠ g2.head?) (split l) := by
  refine ⟨?_, split_all_groups l.head? l.tail, split_all_heads l.head? l.tail⟩
  have e1 : (split l).map (fun g => (g.map into_line).map from_line)
      = (split l).map (List.map Except.ok) := by
    refine List.map_congr_left ?_
    intro g _
    rw [List.map_map]
    exact List.map_congr_left (fun x _ => hrt x)
  rw [e1, ← List.map_flatten]
  have hflat : (split l).flatten = l := by
    unfold split
    rw [split_all_flatten l.head? l.tail (by
      intro h
      cases l with
      | nil => rfl
      | cons x xs => simp at h)]
    cases l with
    | nil => rfl
    | cons x xs => rfl
  rw [hflat]

theorem split_groups_spec_witness :
    ((split [1, 1, 2]).map (fun g =>
        (g.map (fun n => String.mk (List.replicate n 'a'))).map
          (fun s => Except.ok (ε := IoError) s.data.length))).flatten =
        [1, 1, 2].map Except.ok ∧
      (∀ g ∈ split [1, 1, 2], g ≠ [] ∧ ∀ x ∈ g, ∀ y ∈ g, x = y) ∧
      List.Chain' (fun g1 g2 => g1.head? ≠ g2.head?) (split [1, 1, 2]) :=
  split_groups_spec (fun s => Except.ok s.data.length)
    (fun n => String.mk (List.replicate n 'a')) (fun r => by simp) [1, 1, 2]

/-- C8: the composite `Result` codec parses a `'1'`-prefixed line into the
success branch of the inner parse, a `'0'`-prefixed line into the error
branch, and any other line — including the empty one — into
`InvalidInput`; when the inner codecs round-trip, so does the composite
codec. -/
theorem result_codec_spec {τ ε : Type} (tf : List Char → Except IoError τ)
    (ef : List Char → Except IoError ε) (ti : τ → List Char) (ei : ε → List Char) :
    (∀ rest, result_from_line tf ef ('1' :: rest) = (tf rest).map RResult.ok) ∧
    (∀ rest, result_from_line tf ef ('0' :: rest) = (ef rest).map RResult.err) ∧
    result_from_line tf ef [] = Except.error IoError.invalidInput ∧
    (∀ c rest, c ≠ '1' → c ≠ '0' →
      result_from_line tf ef (c :: rest) = Except.error IoError.invalidInput) ∧
    ((∀ v, tf (ti v) = .ok v) → (∀ e2, ef (ei e2) = .ok e2) →
      ∀ x : RResult τ ε,
        result_from_line tf ef (result_into_line ti ei x) = .ok x) := by
  refine ⟨?_, ?_, rfl, ?_, ?_⟩
  · intro rest
    simp [result_from_line]
  · intro rest
    simp [result_from_line]
  · intro c rest h1 h0
    simp [result_from_line, h1, h0]
  · intro ht he x
    cases x with
    | ok v =>
      show result_from_line tf ef ('1' :: ti v) = _
      simp [result_from_line, ht v, Except.map]
    | err e2 =>
      show result_from_line tf ef ('0' :: ei e2) = _
      simp [result_from_line, he e2, Except.map]

theorem result_codec_spec_witness :
    result_from_line (fun l => Except.ok l.length) (fun l => Except.ok l.length)
        (result_into_line (fun n => List.replicate n 'a')
          (fun n => List.replicate n 'b') (RResult.ok 2)) =
      Except.ok (RResult.ok 2) :=
  (result_codec_spec (fun l => Except.ok l.length) (fun l => Except.ok l.length)
      (fun n => List.replicate n 'a') (fun n => List.replicate n 'b')).2.2.2.2
    (fun v => by simp) (fun e2 => by simp) (RResult.ok 2)

/-- C9: each step of the sorted iterator yields either the next record —
the next line parsed with `from_line` — or the propagated I/O error of that
line read, as an element; a step yields nothing only when `as_iter`
installed no file or the final run is exhausted. -/
theorem sorted_iter_yields (from_line : String → α) :
    (∀ (st : Option (List (Except IoError String))) (it : Except IoError α)
        (st2 : Option (List (Except IoError String))),
      sorted_iter_next from_line st = (some it, st2) →
      (∃ l rest, st = some (Except.ok l :: rest) ∧ it = Except.ok (from_line l) ∧
        st2 = some rest) ∨
      (∃ e rest, st = some (Except.error e :: rest) ∧ it = Except.error e ∧
        st2 = some rest)) ∧
    (∀ st st2, sorted_iter_next from_line st = (none, st2) →
      st = none ∨ st = some []) := by
  constructor
  · intro st it st2 h
    match st with
    | none => simp [sorted_iter_next] at h
    | some [] => simp [sorted_iter_next] at h
    | some (Except.ok l :: rest) =>
      left
      simp only [sorted_iter_next, Prod.mk.injEq, Option.some.injEq] at h
      obtain ⟨h1, h2⟩ := h
      exact ⟨l, rest, rfl, by rw [← h1]; rfl, h2.symm⟩
    | some (Except.error e :: rest) =>
      right
      simp only [sorted_iter_next, Prod.mk.injEq, Option.some.injEq] at h
      obtain ⟨h1, h2⟩ := h
      exact ⟨e, rest, rfl, by rw [← h1]; rfl, h2.symm⟩
  · intro st st2 h
    match st with
    | none => left; rfl
    | some [] => right; rfl
    | some (ml :: rest) => simp [sorted_iter_next] at h

theorem sorted_iter_yields_witness :
    (∃ l rest, (some [(Except.error (IoError.other 0) : Except IoError String)]) =
        some (Except.ok l :: rest) ∧
      (Except.error (IoError.other 0) : Except IoError Nat) =
        Except.ok ((fun s => s.data.length) l) ∧
      (some [] : Option (List (Except IoError String))) = some rest) ∨
    (∃ e rest, (some [(Except.error (IoError.other 0) : Except IoError String)]) =
        some (Except.error e :: rest) ∧
      (Except.error (IoError.other 0) : Except IoError Nat) = Except.error e ∧
      (some [] : Option (List (Except IoError String))) = some rest) :=
  (sorted_iter_yields (fun s => s.data.length)).1
    (some [Except.error (IoError.other 0)]) (Except.error (IoError.other 0))
    (some []) rfl

/-- C10: if writing a record of the current group fails, `SplitIter::next`
returns `Some(Err)` with the lookahead already cleared — so every later
call returns `None` — and the record pulled from the source during the
failing step (at most one; none if the source was exhausted) is neither
delivered nor buffered: the original stream splits into the records
written so far, the record whose write failed, the dropped pulled record,
and the suffix left in the iterator. -/
theorem split_write_failure_spec {ε : Type} (wr : α → Option ε)
    (st st2 : Option α × List α) (e : ε)
    (h : split_iter_next_f wr st = (some (Except.error e), st2)) :
    st2.1 = none ∧ split_iter_next_f wr st2 = (none, st2) ∧
    ∃ last rest pre fail dropped,
      st = (some last, rest) ∧
      last :: rest = pre ++ fail :: (dropped ++ st2.2) ∧
      (∀ y ∈ pre, wr y = none) ∧ wr fail = some e ∧
      dropped.length ≤ 1 ∧ (dropped = [] → st2.2 = []) := by
  obtain ⟨la0, rest0⟩ := st
  cases la0 with
  | none => simp [split_iter_next_f] at h
  | some last =>
    simp only [split_iter_next_f, Prod.mk.injEq, Option.some.injEq] at h
    obtain ⟨h1, h2⟩ := h
    obtain ⟨la2, r2⟩ := st2
    have heq : split_next_f wr last rest0 = (.error e, (la2, r2)) := by
      rw [← h1, ← h2]
    obtain ⟨hla, pre, fail, dropped, hdec, hpre, hfail, hlen, himp⟩ :=
      split_next_f_error wr rest0 last e la2 r2 heq
    subst hla
    exact ⟨rfl, rfl, last, rest0, pre, fail, dropped, rfl, hdec, hpre, hfail, hlen, himp⟩

theorem split_write_failure_spec_witness :
    ((none : Option Nat), [2]).1 = none ∧
      split_iter_next_f (fun x : Nat => if x = 0 then some 9 else none)
        ((none : Option Nat), [2]) = (none, ((none : Option Nat), [2])) ∧
      ∃ last rest pre fail dropped,
        ((some 0 : Option Nat), [1, 2]) = (some last, rest) ∧
        last :: rest = pre ++ fail :: (dropped ++ ((none : Option Nat), [2]).2) ∧
        (∀ y ∈ pre, (fun x : Nat => if x = 0 then some 9 else none) y = none) ∧
        (fun x : Nat => if x = 0 then some 9 else none) fail = some 9 ∧
        dropped.length ≤ 1 ∧ (dropped = [] → ((none : Option Nat), [2]).2 = []) :=
  split_write_failure_spec (fun x : Nat => if x = 0 then some 9 else none)
    (some 0, [1, 2]) (none, [2]) 9 rfl

end Extsort
